import Mathlib

/-!
Shallow embedding of the computational-graph builder and evaluator
(`graph-rs/src/lib.rs`): the node data model, the `Builder` operations,
the forward-evaluation pass `fill_nodes`, and the constraint checker
`check_constraints`, together with theorems settling the specification
claims.  Hash maps from `usize` to `u32` are embedded extensionally as
functions `Nat → Option Nat`; `u32` arithmetic is `Nat` arithmetic with
an explicit `% 2 ^ 32` where the source wraps.
-/

namespace CG

/-- A value mapping, embedding `HashMap<usize, u32>` extensionally. -/
abbrev ValMap := Nat → Option Nat

/-- The empty value mapping (`HashMap::new`). -/
def emptyMap : ValMap := fun _ => none

/-- `HashMap::insert`: later inserts shadow earlier entries at the same key. -/
def mapInsert (m : ValMap) (k v : Nat) : ValMap :=
  fun q => if q = k then some v else m q

/-- Wrapper for hint functions (`struct HintFunction`): a debug identifier
and the actual function from a dependency-value mapping to a `u32`. -/
structure HintFunction where
  id : Nat
  func : ValMap → Nat

/-- The variant payload of a node (`enum NodeType`). -/
inductive NodeType where
  | input : NodeType
  | constant : Nat → NodeType
  | add : Nat → Nat → NodeType
  | mul : Nat → Nat → NodeType
  | hint : List Nat → HintFunction → NodeType

/-- A node in the computational graph (`struct Node`). -/
structure Node where
  id : Nat
  node_type : NodeType

/-- An equality constraint between two node identifiers (`struct Constraint`). -/
structure Constraint where
  left : Nat
  right : Nat

/-- The graph builder (`struct Builder`). -/
structure Builder where
  nodes : List Node
  constraints : List Constraint
  next_id : Nat
  next_hint_id : Nat

/-- `Builder::new`. -/
def Builder.new : Builder :=
  { nodes := [], constraints := [], next_id := 0, next_hint_id := 0 }

/-- `Builder::init`: appends an `Input` node and returns its handle.
State-passing embedding of the `&mut self` method. -/
def Builder.init (b : Builder) : Node × Builder :=
  let node : Node := { id := b.next_id, node_type := .input }
  (node, { b with next_id := b.next_id + 1, nodes := b.nodes ++ [node] })

/-- `Builder::constant`: appends a `Constant` node holding `value`. -/
def Builder.constant (b : Builder) (value : Nat) : Node × Builder :=
  let node : Node := { id := b.next_id, node_type := .constant value }
  (node, { b with next_id := b.next_id + 1, nodes := b.nodes ++ [node] })

/-- `Builder::add`: appends an `Add` node referencing the two handles. -/
def Builder.add (b : Builder) (a c : Node) : Node × Builder :=
  let node : Node := { id := b.next_id, node_type := .add a.id c.id }
  (node, { b with next_id := b.next_id + 1, nodes := b.nodes ++ [node] })

/-- `Builder::mul`: appends a `Mul` node referencing the two handles. -/
def Builder.mul (b : Builder) (a c : Node) : Node × Builder :=
  let node : Node := { id := b.next_id, node_type := .mul a.id c.id }
  (node, { b with next_id := b.next_id + 1, nodes := b.nodes ++ [node] })

/-- `Builder::assert_equal`: registers an equality constraint. -/
def Builder.assert_equal (b : Builder) (a c : Node) : Builder :=
  { b with constraints := b.constraints ++ [{ left := a.id, right := c.id }] }

/-- `Builder::hint`: allocates a fresh hint-function identifier and appends a
`Hint` node whose dependency list is the identifiers of `dependencies`. -/
def Builder.hint (b : Builder) (dependencies : List Node)
    (compute_func : ValMap → Nat) : Node × Builder :=
  let node : Node :=
    { id := b.next_id,
      node_type := .hint (dependencies.map (fun n => n.id))
        { id := b.next_hint_id, func := compute_func } }
  (node, { b with next_id := b.next_id + 1, next_hint_id := b.next_hint_id + 1,
                  nodes := b.nodes ++ [node] })

/-- The input-validation loop at the top of `Builder::fill_nodes`: returns the
identifier of the first `Input` node absent from the supplied mapping. -/
def findMissingInput (nodes : List Node) (inputs : ValMap) : Option Nat :=
  match nodes with
  | [] => none
  | n :: rest =>
    match n.node_type with
    | .input => if (inputs n.id).isNone then some n.id else findMissingInput rest inputs
    | _ => findMissingInput rest inputs

/-- The dependency-collection loop in the `Hint` arm of `fill_nodes`: walks the
dependency list, inserting each resolved value into the sub-mapping and raising
the `missing` flag for each unresolved one. -/
def buildDepMap (values : ValMap) (deps : List Nat) (acc : ValMap)
    (missing : Bool) : ValMap × Bool :=
  match deps with
  | [] => (acc, missing)
  | d :: rest =>
    match values d with
    | some v => buildDepMap values rest (mapInsert acc d v) missing
    | none => buildDepMap values rest acc true

/-- The body of the evaluation loop of `fill_nodes` for a single node. -/
def processNode (values : ValMap) (n : Node) : Except String ValMap :=
  match n.node_type with
  | .input => .ok values
  | .constant v => .ok (mapInsert values n.id v)
  | .add a c =>
    match values a, values c with
    | some va, some vc => .ok (mapInsert values n.id ((va + vc) % 2 ^ 32))
    | _, _ => .error ("Missing values for Add operation at node " ++ toString n.id)
  | .mul a c =>
    match values a, values c with
    | some va, some vc => .ok (mapInsert values n.id ((va * vc) % 2 ^ 32))
    | _, _ => .error ("Missing values for Mul operation at node " ++ toString n.id)
  | .hint deps f =>
    let r := buildDepMap values deps emptyMap false
    if r.2 then .error ("Missing dependency values for Hint at node " ++ toString n.id)
    else .ok (mapInsert values n.id (f.func r.1))

/-- The evaluation loop of `fill_nodes`: processes nodes in storage order,
aborting on the first failure. -/
def processNodes (values : ValMap) (nodes : List Node) : Except String ValMap :=
  match nodes with
  | [] => .ok values
  | n :: rest =>
    match processNode values n with
    | .ok v => processNodes v rest
    | .error e => .error e

/-- `Builder::fill_nodes`: validates that every `Input` node has a supplied
value, seeds the working mapping with the inputs, then evaluates all nodes in
storage order. -/
def Builder.fill_nodes (b : Builder) (inputs : ValMap) : Except String ValMap :=
  match findMissingInput b.nodes inputs with
  | some id => .error ("Missing value for input node " ++ toString id)
  | none => processNodes inputs b.nodes

/-- The constraint loop of `Builder::check_constraints`. -/
def checkConstraintList (values : ValMap) (cs : List Constraint) : Bool :=
  match cs with
  | [] => true
  | c :: rest =>
    match values c.left, values c.right with
    | some l, some r => if l = r then checkConstraintList values rest else false
    | _, _ => false

/-- `Builder::check_constraints`. -/
def Builder.check_constraints (b : Builder) (values : ValMap) : Bool :=
  checkConstraintList values b.constraints

/-- Replace the attached function of every `Hint` node, leaving identifiers,
node kinds and dependency lists untouched.  Used to express that a result is
independent of the hint functions (so none of them can have been invoked). -/
def Node.mapHint (t : HintFunction → HintFunction) (n : Node) : Node :=
  match n.node_type with
  | .hint deps f => { id := n.id, node_type := .hint deps (t f) }
  | _ => n

/-- Replace every hint function of a builder via `Node.mapHint`. -/
def mapHintFuncs (t : HintFunction → HintFunction) (b : Builder) : Builder :=
  { b with nodes := b.nodes.map (Node.mapHint t) }

/-- A payload references only identifiers strictly below the bound `i`. -/
def NodeType.refsBelow : NodeType → Nat → Prop
  | .input, _ => True
  | .constant _, _ => True
  | .add a c, i => a < i ∧ c < i
  | .mul a c, i => a < i ∧ c < i
  | .hint deps _, i => ∀ d ∈ deps, d < i

/-- The node list is well-formed when read from position `p`: each node's
identifier equals its position and its payload references only strictly
earlier identifiers. -/
def nodesWF : Nat → List Node → Prop
  | _, [] => True
  | p, n :: rest => n.id = p ∧ n.node_type.refsBelow p ∧ nodesWF (p + 1) rest

/-- Builder states reachable from the empty builder through the documented
operations, where every handle passed to an operation was previously returned
by the same builder — hence carries an identifier below the builder's
`next_id` at the time of the call. -/
inductive Built : Builder → Prop where
  | new : Built Builder.new
  | init (b : Builder) : Built b → Built (b.init).2
  | constant (b : Builder) (v : Nat) : Built b → Built (b.constant v).2
  | add (b : Builder) (a c : Node) : Built b →
      a.id < b.next_id → c.id < b.next_id → Built (b.add a c).2
  | mul (b : Builder) (a c : Node) : Built b →
      a.id < b.next_id → c.id < b.next_id → Built (b.mul a c).2
  | assert_equal (b : Builder) (a c : Node) : Built b → Built (b.assert_equal a c)
  | hint (b : Builder) (deps : List Node) (f : ValMap → Nat) : Built b →
      (∀ d ∈ deps, d.id < b.next_id) → Built (b.hint deps f).2

/-- The construction invariant of a builder: `next_id` equals the node count
and the node list is well-formed from position `0`. -/
def Builder.WF (b : Builder) : Prop :=
  b.next_id = b.nodes.length ∧ nodesWF 0 b.nodes

/-! ### Concrete graphs used to instantiate the claims -/

/-- Scenario A of the spec: `x = Input` (id 0). -/
def pEx1 : Node × Builder := Builder.new.init

/-- Scenario A: `s = Mul(x, x)` (id 1). -/
def pEx2 : Node × Builder := pEx1.2.mul pEx1.1 pEx1.1

/-- Scenario A: `five = Constant(5)` (id 2). -/
def pEx3 : Node × Builder := pEx2.2.constant 5

/-- Scenario A: `t = Add(s, x)` (id 3). -/
def pEx4 : Node × Builder := pEx3.2.add pEx2.1 pEx1.1

/-- Scenario A: `r = Add(t, five)` (id 4). -/
def pEx5 : Node × Builder := pEx4.2.add pEx4.1 pEx3.1

/-- The Scenario A builder. -/
def bEx : Builder := pEx5.2

/-- Scenario A input mapping: `x = 3`. -/
def inputsEx : ValMap := fun k => if k = 0 then some 3 else none

/-- The value mapping computed by `fill_nodes` on Scenario A. -/
def mEx : ValMap := (bEx.fill_nodes inputsEx).toOption.getD emptyMap

/-- Wrapping example: `Constant(4294967295)` (id 0). -/
def qW1 : Node × Builder := Builder.new.constant 4294967295

/-- Wrapping example: `Constant(2)` (id 1). -/
def qW2 : Node × Builder := qW1.2.constant 2

/-- Wrapping example: `Add(Constant(4294967295), Constant(2))` (id 2). -/
def qW3 : Node × Builder := qW2.2.add qW1.1 qW2.1

/-- The wrapping-example builder. -/
def bWrap : Builder := qW3.2

/-- The value mapping computed by `fill_nodes` on the wrapping example. -/
def mWrap : ValMap := (bWrap.fill_nodes emptyMap).toOption.getD emptyMap

/-- An input node (id 0) followed by a hint node (id 1) depending on it. -/
def rH1 : Node × Builder := Builder.new.init

/-- The hint node of `bHint`: adds one to the value of node 0. -/
def rH2 : Node × Builder := rH1.2.hint [rH1.1] (fun v => (v 0).getD 0 + 1)

/-- A builder with an input node and a hint node, used to exercise the eager
missing-input failure. -/
def bHint : Builder := rH2.2

/-- A hint-function replacement that zeroes out every hint function. -/
def tZero : HintFunction → HintFunction := fun f => { id := f.id, func := fun _ => 0 }

/-- An out-of-discipline builder whose single `Add` node references the
non-existent identifiers 3 and 4. -/
def bAddGap : Builder :=
  { nodes := [{ id := 0, node_type := .add 3 4 }],
    constraints := [], next_id := 1, next_hint_id := 0 }

/-- An out-of-discipline builder whose single `Hint` node depends on the
non-existent identifiers 3 and 4. -/
def bHintGap : Builder :=
  { nodes := [{ id := 0, node_type := .hint [3, 4] { id := 0, func := fun _ => 0 } }],
    constraints := [], next_id := 1, next_hint_id := 0 }

/-- A mapping resolving identifier 4 but not 3 (left operand missing). -/
def inpL : ValMap := fun k => if k = 4 then some 1 else none

/-- A mapping resolving identifier 3 but not 4 (right operand missing). -/
def inpR : ValMap := fun k => if k = 3 then some 1 else none

/-- A builder holding one constraint `0 = 1` and no nodes. -/
def bCon : Builder :=
  { nodes := [], constraints := [{ left := 0, right := 1 }],
    next_id := 0, next_hint_id := 0 }

/-- A mapping resolving identifiers 0 and 1 to the same value. -/
def vCon : ValMap := fun k => if k ≤ 1 then some 7 else none

/-- Working mapping for the hint sub-mapping witness. -/
def vH : ValMap := fun k => if k = 1 then some 10 else if k = 2 then some 20 else none

/-- Hint function for the sub-mapping witness: sums dependencies 1 and 2. -/
def fH : HintFunction := { id := 0, func := fun m => (m 1).getD 0 + (m 2).getD 0 }

/-- A hint node (id 3) depending on identifiers 1 and 2. -/
def nH : Node := { id := 3, node_type := .hint [1, 2] fH }

/-- A builder with a single `Constant(5)` node with identifier 0. -/
def bOver : Builder :=
  { nodes := [{ id := 0, node_type := .constant 5 }],
    constraints := [], next_id := 1, next_hint_id := 0 }

/-- A mapping supplying a value both for the constant node 0 and for the
identifier 7 of no node at all. -/
def inpOver : ValMap := fun k => if k = 0 then some 99 else if k = 7 then some 42 else none

/-- The value mapping computed by `fill_nodes` on `bOver`. -/
def mOver : ValMap := (bOver.fill_nodes inpOver).toOption.getD emptyMap

/-- A working mapping resolving identifier 0 to 1 and identifier 1 to 2. -/
def vW : ValMap := fun k => if k = 0 then some 1 else if k = 1 then some 2 else none

/-! ### Basic lemmas about the map embedding -/

theorem mapInsert_self (m : ValMap) (k v : Nat) : mapInsert m k v k = some v := by
  simp [mapInsert]

theorem mapInsert_other (m : ValMap) (k v q : Nat) (h : q ≠ k) :
    mapInsert m k v q = m q := by
  simp [mapInsert, h]

theorem mapInsert_isSome (m : ValMap) (k v q : Nat) (h : (m q).isSome) :
    ((mapInsert m k v) q).isSome := by
  by_cases hq : q = k
  · subst hq; simp [mapInsert]
  · rw [mapInsert_other m k v q hq]; exact h

/-! ### Characterization of the per-node evaluation step -/

theorem processNode_input (values : ValMap) (n : Node) (h : n.node_type = .input) :
    processNode values n = .ok values := by
  unfold processNode; rw [h]

theorem processNode_constant (values : ValMap) (n : Node) (v : Nat)
    (h : n.node_type = .constant v) :
    processNode values n = .ok (mapInsert values n.id v) := by
  unfold processNode; rw [h]

theorem processNode_add_ok (values : ValMap) (n : Node) (a c va vc : Nat)
    (h : n.node_type = .add a c) (ha : values a = some va) (hc : values c = some vc) :
    processNode values n = .ok (mapInsert values n.id ((va + vc) % 2 ^ 32)) := by
  unfold processNode; rw [h]; simp only [ha, hc]

theorem processNode_mul_ok (values : ValMap) (n : Node) (a c va vc : Nat)
    (h : n.node_type = .mul a c) (ha : values a = some va) (hc : values c = some vc) :
    processNode values n = .ok (mapInsert values n.id ((va * vc) % 2 ^ 32)) := by
  unfold processNode; rw [h]; simp only [ha, hc]

theorem processNode_add_err (values : ValMap) (n : Node) (a c : Nat)
    (h : n.node_type = .add a c) (hm : values a = none ∨ values c = none) :
    processNode values n =
      .error ("Missing values for Add operation at node " ++ toString n.id) := by
  unfold processNode; rw [h]
  rcases hm with hm | hm
  · simp [hm]
  · cases hva : values a <;> simp [hm, hva]

theorem processNode_mul_err (values : ValMap) (n : Node) (a c : Nat)
    (h : n.node_type = .mul a c) (hm : values a = none ∨ values c = none) :
    processNode values n =
      .error ("Missing values for Mul operation at node " ++ toString n.id) := by
  unfold processNode; rw [h]
  rcases hm with hm | hm
  · simp [hm]
  · cases hva : values a <;> simp [hm, hva]

/-! ### The hint dependency-collection loop -/

theorem buildDepMap_flag_stays (values : ValMap) (deps : List Nat) (acc : ValMap) :
    (buildDepMap values deps acc true).2 = true := by
  induction deps generalizing acc with
  | nil => rfl
  | cons d rest ih =>
    unfold buildDepMap
    cases values d
    · exact ih acc
    · exact ih (mapInsert acc d _)

theorem buildDepMap_flag_false (values : ValMap) (deps : List Nat) (acc : ValMap)
    (h : ∀ d ∈ deps, (values d).isSome) :
    (buildDepMap values deps acc false).2 = false := by
  induction deps generalizing acc with
  | nil => rfl
  | cons d rest ih =>
    unfold buildDepMap
    cases hd : values d
    · exact absurd (hd ▸ h d (List.mem_cons_self d rest)) (by simp)
    · exact ih (mapInsert acc d _) (fun e he => h e (List.mem_cons_of_mem d he))

theorem buildDepMap_flag_true (values : ValMap) (deps : List Nat) (acc : ValMap)
    (ms : Bool) (h : ∃ d ∈ deps, values d = none) :
    (buildDepMap values deps acc ms).2 = true := by
  induction deps generalizing acc ms with
  | nil => obtain ⟨d, hd, _⟩ := h; exact absurd hd (List.not_mem_nil d)
  | cons d rest ih =>
    unfold buildDepMap
    cases hd : values d
    · exact buildDepMap_flag_stays values rest acc
    · obtain ⟨e, he, hen⟩ := h
      rcases List.mem_cons.mp he with rfl | he'
      · rw [hd] at hen; exact absurd hen (by simp)
      · exact ih (mapInsert acc d _) ms ⟨e, he', hen⟩

theorem buildDepMap_char (values : ValMap) (deps : List Nat) (acc : ValMap)
    (h : ∀ d ∈ deps, (values d).isSome) (k : Nat) :
    (buildDepMap values deps acc false).1 k =
      if k ∈ deps then values k else acc k := by
  induction deps generalizing acc with
  | nil => simp [buildDepMap]
  | cons d rest ih =>
    unfold buildDepMap
    cases hd : values d with
    | none => exact absurd (hd ▸ h d (List.mem_cons_self d rest)) (by simp)
    | some v =>
      rw [ih (mapInsert acc d v) (fun e he => h e (List.mem_cons_of_mem d he))]
      by_cases hk : k ∈ rest
      · simp [hk, List.mem_cons.mpr (Or.inr hk)]
      · by_cases hkd : k = d
        · subst hkd
          simp [hk, mapInsert_self, hd, List.mem_cons_self]
        · simp [hk, hkd, mapInsert_other acc d v k hkd, List.mem_cons]

theorem processNode_hint_ok (values : ValMap) (n : Node) (deps : List Nat)
    (f : HintFunction) (h : n.node_type = .hint deps f)
    (hres : ∀ d ∈ deps, (values d).isSome) :
    processNode values n =
      .ok (mapInsert values n.id
        (f.func (buildDepMap values deps emptyMap false).1)) := by
  unfold processNode; rw [h]
  simp only [buildDepMap_flag_false values deps emptyMap hres]
  rfl

theorem processNode_hint_err (values : ValMap) (n : Node) (deps : List Nat)
    (f : HintFunction) (h : n.node_type = .hint deps f)
    (hmiss : ∃ d ∈ deps, values d = none) :
    processNode values n =
      .error ("Missing dependency values for Hint at node " ++ toString n.id) := by
  unfold processNode; rw [h]
  simp only [buildDepMap_flag_true values deps emptyMap false hmiss]
  rfl

/-- Any successful evaluation step either leaves the working mapping unchanged
(`Input`) or inserts a value exactly at the node's own identifier. -/
theorem processNode_ok_shape (values : ValMap) (n : Node) (v : ValMap)
    (h : processNode values n = .ok v) :
    v = values ∨ ∃ w, v = mapInsert values n.id w := by
  cases ht : n.node_type with
  | input =>
    rw [processNode_input values n ht] at h
    exact Or.inl (Except.ok.inj h).symm
  | constant c =>
    rw [processNode_constant values n c ht] at h
    exact Or.inr ⟨c, (Except.ok.inj h).symm⟩
  | add a c =>
    cases ha : values a with
    | none => rw [processNode_add_err values n a c ht (Or.inl ha)] at h; cases h
    | some va =>
      cases hc : values c with
      | none => rw [processNode_add_err values n a c ht (Or.inr hc)] at h; cases h
      | some vc =>
        rw [processNode_add_ok values n a c va vc ht ha hc] at h
        exact Or.inr ⟨_, (Except.ok.inj h).symm⟩
  | mul a c =>
    cases ha : values a with
    | none => rw [processNode_mul_err values n a c ht (Or.inl ha)] at h; cases h
    | some va =>
      cases hc : values c with
      | none => rw [processNode_mul_err values n a c ht (Or.inr hc)] at h; cases h
      | some vc =>
        rw [processNode_mul_ok values n a c va vc ht ha hc] at h
        exact Or.inr ⟨_, (Except.ok.inj h).symm⟩
  | hint deps f =>
    by_cases hall : ∀ d ∈ deps, (values d).isSome
    · rw [processNode_hint_ok values n deps f ht hall] at h
      exact Or.inr ⟨_, (Except.ok.inj h).symm⟩
    · push_neg at hall
      obtain ⟨d, hd, hdn⟩ := hall
      rw [processNode_hint_err values n deps f ht
        ⟨d, hd, Option.not_isSome_iff_eq_none.mp hdn⟩] at h
      cases h

/-- A successful step preserves every resolved entry. -/
theorem processNode_mono (values : ValMap) (n : Node) (v : ValMap)
    (h : processNode values n = .ok v) (k : Nat) (hk : (values k).isSome) :
    (v k).isSome := by
  rcases processNode_ok_shape values n v h with rfl | ⟨w, rfl⟩
  · exact hk
  · exact mapInsert_isSome values n.id w k hk

/-- A successful step changes the working mapping only at the node's own id. -/
theorem processNode_preserves (values : ValMap) (n : Node) (v : ValMap)
    (h : processNode values n = .ok v) (k : Nat) (hk : n.id ≠ k) :
    v k = values k := by
  rcases processNode_ok_shape values n v h with rfl | ⟨w, rfl⟩
  · rfl
  · exact mapInsert_other values n.id w k (fun he => hk he.symm)

/-- A successful evaluation pass preserves every resolved entry. -/
theorem processNodes_mono (nodes : List Node) (values : ValMap) (m : ValMap)
    (h : processNodes values nodes = .ok m) (k : Nat) (hk : (values k).isSome) :
    (m k).isSome := by
  induction nodes generalizing values with
  | nil => exact (Except.ok.inj h) ▸ hk
  | cons n rest ih =>
    unfold processNodes at h
    cases hp : processNode values n with
    | error e => rw [hp] at h; cases h
    | ok v => rw [hp] at h; exact ih v h (processNode_mono values n v hp k hk)

/-- A successful evaluation pass leaves every key that is no node's identifier
exactly as it was seeded. -/
theorem processNodes_preserves (nodes : List Node) (values : ValMap) (m : ValMap)
    (h : processNodes values nodes = .ok m) (k : Nat)
    (hk : ∀ n ∈ nodes, n.id ≠ k) : m k = values k := by
  induction nodes generalizing values with
  | nil => exact (Except.ok.inj h) ▸ rfl
  | cons n rest ih =>
    unfold processNodes at h
    cases hp : processNode values n with
    | error e => rw [hp] at h; cases h
    | ok v =>
      rw [hp] at h
      rw [ih v h (fun e he => hk e (List.mem_cons_of_mem n he))]
      exact processNode_preserves values n v hp k (hk n (List.mem_cons_self n rest))

/-- A successful step resolves the node's own identifier, provided an
`Input` node's identifier was already resolved beforehand. -/
theorem processNode_self (values : ValMap) (n : Node) (v : ValMap)
    (h : processNode values n = .ok v)
    (hinp : n.node_type = .input → (values n.id).isSome) :
    (v n.id).isSome := by
  cases ht : n.node_type with
  | input =>
    rw [processNode_input values n ht] at h
    exact (Except.ok.inj h) ▸ hinp ht
  | constant c =>
    rw [processNode_constant values n c ht] at h
    rw [← Except.ok.inj h, mapInsert_self]; rfl
  | add a c =>
    cases ha : values a with
    | none => rw [processNode_add_err values n a c ht (Or.inl ha)] at h; cases h
    | some va =>
      cases hc : values c with
      | none => rw [processNode_add_err values n a c ht (Or.inr hc)] at h; cases h
      | some vc =>
        rw [processNode_add_ok values n a c va vc ht ha hc] at h
        rw [← Except.ok.inj h, mapInsert_self]; rfl
  | mul a c =>
    cases ha : values a with
    | none => rw [processNode_mul_err values n a c ht (Or.inl ha)] at h; cases h
    | some va =>
      cases hc : values c with
      | none => rw [processNode_mul_err values n a c ht (Or.inr hc)] at h; cases h
      | some vc =>
        rw [processNode_mul_ok values n a c va vc ht ha hc] at h
        rw [← Except.ok.inj h, mapInsert_self]; rfl
  | hint deps f =>
    by_cases hall : ∀ d ∈ deps, (values d).isSome
    · rw [processNode_hint_ok values n deps f ht hall] at h
      rw [← Except.ok.inj h, mapInsert_self]; rfl
    · push_neg at hall
      obtain ⟨d, hd, hdn⟩ := hall
      rw [processNode_hint_err values n deps f ht
        ⟨d, hd, Option.not_isSome_iff_eq_none.mp hdn⟩] at h
      cases h

/-- After a successful pass, every node of the list has a resolved entry,
provided every `Input` node's identifier was seeded. -/
theorem processNodes_covers (nodes : List Node) (values : ValMap) (m : ValMap)
    (h : processNodes values nodes = .ok m)
    (hinp : ∀ n ∈ nodes, n.node_type = .input → (values n.id).isSome) :
    ∀ n ∈ nodes, (m n.id).isSome := by
  induction nodes generalizing values with
  | nil => intro n hn; exact absurd hn (List.not_mem_nil n)
  | cons n rest ih =>
    unfold processNodes at h
    cases hp : processNode values n with
    | error e => rw [hp] at h; cases h
    | ok v =>
      rw [hp] at h
      intro e he
      rcases List.mem_cons.mp he with rfl | he'
      · exact processNodes_mono rest v m h e.id
          (processNode_self values e v hp (hinp e (List.mem_cons_self e rest)))
      · exact ih v h (fun x hx hxt =>
          processNode_mono values n v hp x.id
            (hinp x (List.mem_cons_of_mem n hx) hxt)) e he'

/-! ### The eager input-validation phase -/

/-- If the input-validation loop finds nothing missing, every `Input` node's
identifier is resolved in the supplied mapping. -/
theorem findMissingInput_none (nodes : List Node) (inputs : ValMap)
    (h : findMissingInput nodes inputs = none) :
    ∀ n ∈ nodes, n.node_type = .input → (inputs n.id).isSome := by
  induction nodes with
  | nil => intro n hn; exact absurd hn (List.not_mem_nil n)
  | cons n rest ih =>
    intro e he het
    unfold findMissingInput at h
    rcases List.mem_cons.mp he with rfl | he'
    · rw [het] at h
      by_cases hs : (inputs e.id).isSome
      · exact hs
      · rw [Option.not_isSome_iff_eq_none.mp hs] at h; simp at h
    · cases ht : n.node_type with
      | input =>
        rw [ht] at h
        cases hi : (inputs n.id).isNone
        · rw [hi] at h; simp at h; exact ih h e he' het
        · rw [hi] at h; simp at h
      | constant c => rw [ht] at h; exact ih h e he' het
      | add a c => rw [ht] at h; exact ih h e he' het
      | mul a c => rw [ht] at h; exact ih h e he' het
      | hint deps f => rw [ht] at h; exact ih h e he' het

/-- If some `Input` node's identifier is absent from the supplied mapping, the
validation loop reports a missing input, and the identifier it reports is that
of an `Input` node of the list with no supplied value. -/
theorem findMissingInput_some (nodes : List Node) (inputs : ValMap)
    (h : ∃ n ∈ nodes, n.node_type = .input ∧ inputs n.id = none) :
    ∃ id, findMissingInput nodes inputs = some id ∧
      ∃ n ∈ nodes, n.id = id ∧ n.node_type = .input ∧ inputs id = none := by
  induction nodes with
  | nil =>
    obtain ⟨n, hn, _⟩ := h
    exact absurd hn (List.not_mem_nil n)
  | cons n rest ih =>
    cases ht : n.node_type with
    | input =>
      cases hi : inputs n.id with
      | none =>
        refine ⟨n.id, ?_, n, List.mem_cons_self n rest, rfl, ht, hi⟩
        unfold findMissingInput
        rw [ht, hi]
        rfl
      | some v =>
        obtain ⟨e, he, het, hen⟩ := h
        have he' : e ∈ rest := by
          rcases List.mem_cons.mp he with rfl | he'
          · rw [hi] at hen; cases hen
          · exact he'
        obtain ⟨id, hfind, e', he'', hprops⟩ := ih ⟨e, he', het, hen⟩
        refine ⟨id, ?_, e', List.mem_cons_of_mem n he'', hprops⟩
        unfold findMissingInput
        rw [ht, hi]
        simpa using hfind
    | constant c =>
      obtain ⟨e, he, het, hen⟩ := h
      have he' : e ∈ rest := by
        rcases List.mem_cons.mp he with rfl | he'
        · rw [ht] at het; cases het
        · exact he'
      obtain ⟨id, hfind, e', he'', hprops⟩ := ih ⟨e, he', het, hen⟩
      exact ⟨id, by unfold findMissingInput; rw [ht]; exact hfind,
        e', List.mem_cons_of_mem n he'', hprops⟩
    | add a c =>
      obtain ⟨e, he, het, hen⟩ := h
      have he' : e ∈ rest := by
        rcases List.mem_cons.mp he with rfl | he'
        · rw [ht] at het; cases het
        · exact he'
      obtain ⟨id, hfind, e', he'', hprops⟩ := ih ⟨e, he', het, hen⟩
      exact ⟨id, by unfold findMissingInput; rw [ht]; exact hfind,
        e', List.mem_cons_of_mem n he'', hprops⟩
    | mul a c =>
      obtain ⟨e, he, het, hen⟩ := h
      have he' : e ∈ rest := by
        rcases List.mem_cons.mp he with rfl | he'
        · rw [ht] at het; cases het
        · exact he'
      obtain ⟨id, hfind, e', he'', hprops⟩ := ih ⟨e, he', het, hen⟩
      exact ⟨id, by unfold findMissingInput; rw [ht]; exact hfind,
        e', List.mem_cons_of_mem n he'', hprops⟩
    | hint deps f =>
      obtain ⟨e, he, het, hen⟩ := h
      have he' : e ∈ rest := by
        rcases List.mem_cons.mp he with rfl | he'
        · rw [ht] at het; cases het
        · exact he'
      obtain ⟨id, hfind, e', he'', hprops⟩ := ih ⟨e, he', het, hen⟩
      exact ⟨id, by unfold findMissingInput; rw [ht]; exact hfind,
        e', List.mem_cons_of_mem n he'', hprops⟩

theorem mapHint_id (t : HintFunction → HintFunction) (n : Node) :
    (Node.mapHint t n).id = n.id := by
  unfold Node.mapHint
  cases h : n.node_type <;> simp [h]

theorem mapHint_input (t : HintFunction → HintFunction) (n : Node) :
    (Node.mapHint t n).node_type = .input ↔ n.node_type = .input := by
  unfold Node.mapHint
  cases h : n.node_type <;> simp [h]

/-- Hint-function replacement does not change what the input-validation loop
reports. -/
theorem findMissingInput_mapHint (nodes : List Node) (inputs : ValMap)
    (t : HintFunction → HintFunction) :
    findMissingInput (nodes.map (Node.mapHint t)) inputs =
      findMissingInput nodes inputs := by
  induction nodes with
  | nil => rfl
  | cons n rest ih =>
    rw [List.map_cons]
    cases ht : n.node_type with
    | input =>
      have h1 : Node.mapHint t n = n := by simp [Node.mapHint, ht]
      unfold findMissingInput
      rw [h1, ht]
      cases h2 : (inputs n.id).isNone <;> simp [h2, ih]
    | constant c =>
      have h1 : Node.mapHint t n = n := by simp [Node.mapHint, ht]
      unfold findMissingInput
      rw [h1, ht]
      exact ih
    | add a c =>
      have h1 : Node.mapHint t n = n := by simp [Node.mapHint, ht]
      unfold findMissingInput
      rw [h1, ht]
      exact ih
    | mul a c =>
      have h1 : Node.mapHint t n = n := by simp [Node.mapHint, ht]
      unfold findMissingInput
      rw [h1, ht]
      exact ih
    | hint deps f =>
      have h1 : Node.mapHint t n = { id := n.id, node_type := .hint deps (t f) } := by
        simp [Node.mapHint, ht]
      unfold findMissingInput
      rw [h1, ht]
      exact ih

/-! ### The construction discipline and its invariant -/

theorem nodesWF_append (p : Nat) (l : List Node) (n : Node)
    (hl : nodesWF p l) (hid : n.id = p + l.length)
    (href : n.node_type.refsBelow (p + l.length)) :
    nodesWF p (l ++ [n]) := by
  induction l generalizing p with
  | nil => exact ⟨by simpa using hid, by simpa using href, trivial⟩
  | cons e rest ih =>
    obtain ⟨h1, h2, h3⟩ := hl
    have harith : p + (e :: rest).length = (p + 1) + rest.length := by
      simp [List.length_cons]; omega
    exact ⟨h1, h2, ih (p + 1) h3 (harith ▸ hid) (harith ▸ href)⟩

/-- Every builder reachable through the documented operations satisfies the
construction invariant. -/
theorem Built.wf (b : Builder) (h : Built b) : b.WF := by
  induction h with
  | new => exact ⟨rfl, trivial⟩
  | init b hb ih =>
    obtain ⟨h1, h2⟩ := ih
    refine ⟨by simp [Builder.init, h1], ?_⟩
    exact nodesWF_append 0 b.nodes _ h2 (by simpa using h1) trivial
  | constant b v hb ih =>
    obtain ⟨h1, h2⟩ := ih
    refine ⟨by simp [Builder.constant, h1], ?_⟩
    exact nodesWF_append 0 b.nodes _ h2 (by simpa using h1) trivial
  | add b a c hb ha hc ih =>
    obtain ⟨h1, h2⟩ := ih
    refine ⟨by simp [Builder.add, h1], ?_⟩
    refine nodesWF_append 0 b.nodes _ h2 (by simpa using h1) ?_
    exact ⟨by simpa using h1 ▸ ha, by simpa using h1 ▸ hc⟩
  | mul b a c hb ha hc ih =>
    obtain ⟨h1, h2⟩ := ih
    refine ⟨by simp [Builder.mul, h1], ?_⟩
    refine nodesWF_append 0 b.nodes _ h2 (by simpa using h1) ?_
    exact ⟨by simpa using h1 ▸ ha, by simpa using h1 ▸ hc⟩
  | assert_equal b a c hb ih =>
    obtain ⟨h1, h2⟩ := ih
    exact ⟨by simpa [Builder.assert_equal] using h1,
      by simpa [Builder.assert_equal] using h2⟩
  | hint b deps f hb hd ih =>
    obtain ⟨h1, h2⟩ := ih
    refine ⟨by simp [Builder.hint, h1], ?_⟩
    refine nodesWF_append 0 b.nodes _ h2 (by simpa using h1) ?_
    intro d hdm
    obtain ⟨e, he, rfl⟩ := List.mem_map.mp hdm
    simpa using h1 ▸ hd e he

/-- On a well-formed suffix whose earlier positions are all resolved and whose
`Input` identifiers are all resolved, the evaluation loop cannot fail. -/
theorem processNodes_wf_ok (nodes : List Node) (p : Nat) (values : ValMap)
    (hwf : nodesWF p nodes)
    (hlow : ∀ j, j < p → (values j).isSome)
    (hinp : ∀ n ∈ nodes, n.node_type = .input → (values n.id).isSome) :
    ∃ m, processNodes values nodes = .ok m := by
  induction nodes generalizing p values with
  | nil => exact ⟨values, rfl⟩
  | cons n rest ih =>
    obtain ⟨hid, href, hrest⟩ := hwf
    have hstep : ∃ v, processNode values n = .ok v := by
      cases ht : n.node_type with
      | input => exact ⟨values, processNode_input values n ht⟩
      | constant c => exact ⟨_, processNode_constant values n c ht⟩
      | add a c =>
        have hrb : a < p ∧ c < p := by rw [ht] at href; exact href
        obtain ⟨va, hva⟩ := Option.isSome_iff_exists.mp (hlow a hrb.1)
        obtain ⟨vc, hvc⟩ := Option.isSome_iff_exists.mp (hlow c hrb.2)
        exact ⟨_, processNode_add_ok values n a c va vc ht hva hvc⟩
      | mul a c =>
        have hrb : a < p ∧ c < p := by rw [ht] at href; exact href
        obtain ⟨va, hva⟩ := Option.isSome_iff_exists.mp (hlow a hrb.1)
        obtain ⟨vc, hvc⟩ := Option.isSome_iff_exists.mp (hlow c hrb.2)
        exact ⟨_, processNode_mul_ok values n a c va vc ht hva hvc⟩
      | hint deps f =>
        have hrb : ∀ d ∈ deps, d < p := by rw [ht] at href; exact href
        exact ⟨_, processNode_hint_ok values n deps f ht
          (fun d hd => hlow d (hrb d hd))⟩
    obtain ⟨v, hv⟩ := hstep
    have hlow' : ∀ j, j < p + 1 → (v j).isSome := by
      intro j hj
      rcases Nat.lt_succ_iff_lt_or_eq.mp hj with hj' | rfl
      · exact processNode_mono values n v hv j (hlow j hj')
      · exact hid ▸ processNode_self values n v hv
          (fun ht => hinp n (List.mem_cons_self n rest) ht)
    have hinp' : ∀ e ∈ rest, e.node_type = .input → (v e.id).isSome := by
      intro e he het
      exact processNode_mono values n v hv e.id
        (hinp e (List.mem_cons_of_mem n he) het)
    obtain ⟨m, hm⟩ := ih (p + 1) v hrest hlow' hinp'
    refine ⟨m, ?_⟩
    unfold processNodes
    rw [hv]
    exact hm

/-- Positional reading of `nodesWF`: the node at index `i` carries identifier
`p + i` and references only identifiers strictly below `p + i`. -/
theorem nodesWF_get (l : List Node) (p : Nat) (h : nodesWF p l) :
    ∀ i (hi : i < l.length),
      (l.get ⟨i, hi⟩).id = p + i ∧
      (l.get ⟨i, hi⟩).node_type.refsBelow (p + i) := by
  induction l generalizing p with
  | nil => intro i hi; exact absurd hi (by simp)
  | cons n rest ih =>
    obtain ⟨h1, h2, h3⟩ := h
    intro i hi
    cases i with
    | zero => exact ⟨by simpa using h1, by simpa using h2⟩
    | succ j =>
      have hj : j < rest.length := by simpa using hi
      have := ih (p + 1) h3 j hj
      have harith : p + 1 + j = p + (j + 1) := by omega
      rw [harith] at this
      exact ⟨by simpa using this.1, by simpa using this.2⟩

/-! ### The constraint checker -/

theorem checkConstraintList_cons (values : ValMap) (c : Constraint)
    (rest : List Constraint) :
    checkConstraintList values (c :: rest) = true ↔
      (∃ v, values c.left = some v ∧ values c.right = some v) ∧
      checkConstraintList values rest = true := by
  cases hl : values c.left with
  | none =>
    have hfalse : checkConstraintList values (c :: rest) = false := by
      unfold checkConstraintList; rw [hl]
    simp [hfalse, hl]
  | some l =>
    cases hr : values c.right with
    | none =>
      have hfalse : checkConstraintList values (c :: rest) = false := by
        unfold checkConstraintList; rw [hl, hr]
      simp [hfalse, hl, hr]
    | some r =>
      have heq : checkConstraintList values (c :: rest) =
          if l = r then checkConstraintList values rest else false := by
        conv_lhs => unfold checkConstraintList
        rw [hl, hr]
      by_cases he : l = r
      · subst he
        rw [heq, if_pos rfl]
        simp [hl, hr]
      · rw [heq, if_neg he]
        constructor
        · intro h; exact Bool.noConfusion h
        · intro ⟨⟨v, hv1, hv2⟩, _⟩
          exact absurd ((Option.some.inj hv1).trans (Option.some.inj hv2).symm) he

theorem checkConstraintList_iff (values : ValMap) (cs : List Constraint) :
    checkConstraintList values cs = true ↔
      ∀ c ∈ cs, ∃ v, values c.left = some v ∧ values c.right = some v := by
  induction cs with
  | nil => simp [checkConstraintList]
  | cons c rest ih =>
    rw [checkConstraintList_cons, ih]
    constructor
    · intro ⟨h1, h2⟩ e he
      rcases List.mem_cons.mp he with rfl | he'
      · exact h1
      · exact h2 e he'
    · intro h
      exact ⟨h c (List.mem_cons_self c rest),
        fun e he => h e (List.mem_cons_of_mem c he)⟩

/-- The identifier reported by the input-validation loop always belongs to an
`Input` node of the list with no supplied value. -/
theorem findMissingInput_spec (nodes : List Node) (inputs : ValMap) (id : Nat)
    (h : findMissingInput nodes inputs = some id) :
    ∃ n ∈ nodes, n.id = id ∧ n.node_type = .input ∧ inputs id = none := by
  induction nodes with
  | nil => cases h
  | cons n rest ih =>
    unfold findMissingInput at h
    cases ht : n.node_type with
    | input =>
      rw [ht] at h
      cases hi : (inputs n.id).isNone with
      | false =>
        rw [hi] at h
        simp only [Bool.false_eq_true, if_false] at h
        obtain ⟨e, he, hp⟩ := ih h
        exact ⟨e, List.mem_cons_of_mem n he, hp⟩
      | true =>
        rw [hi] at h
        simp only [if_true] at h
        have hid : n.id = id := Option.some.inj h
        exact ⟨n, List.mem_cons_self n rest, hid, ht,
          hid ▸ Option.isNone_iff_eq_none.mp hi⟩
    | constant c =>
      rw [ht] at h
      obtain ⟨e, he, hp⟩ := ih h
      exact ⟨e, List.mem_cons_of_mem n he, hp⟩
    | add a c =>
      rw [ht] at h
      obtain ⟨e, he, hp⟩ := ih h
      exact ⟨e, List.mem_cons_of_mem n he, hp⟩
    | mul a c =>
      rw [ht] at h
      obtain ⟨e, he, hp⟩ := ih h
      exact ⟨e, List.mem_cons_of_mem n he, hp⟩
    | hint deps f =>
      rw [ht] at h
      obtain ⟨e, he, hp⟩ := ih h
      exact ⟨e, List.mem_cons_of_mem n he, hp⟩

/-- The Scenario A builder is reachable through the documented operations. -/
theorem built_bEx : Built bEx :=
  Built.add pEx4.2 pEx4.1 pEx3.1
    (Built.add pEx3.2 pEx2.1 pEx1.1
      (Built.constant pEx2.2 5
        (Built.mul pEx1.2 pEx1.1 pEx1.1
          (Built.init Builder.new Built.new)
          (by decide) (by decide)))
      (by decide) (by decide))
    (by decide) (by decide)

/-! ### The claims -/

/-- C1: whenever `fill_nodes` returns successfully, the returned mapping
contains an entry for every node identifier in the graph (the alternative
return, by the type of `fill_nodes`, is a descriptive `String` failure). -/
theorem claim_fill_nodes_complete (b : Builder) (inputs : ValMap) (m : ValMap)
    (h : b.fill_nodes inputs = .ok m) : ∀ n ∈ b.nodes, (m n.id).isSome := by
  unfold Builder.fill_nodes at h
  cases hf : findMissingInput b.nodes inputs with
  | some id => rw [hf] at h; cases h
  | none =>
    rw [hf] at h
    exact processNodes_covers b.nodes inputs m h
      (findMissingInput_none b.nodes inputs hf)

/-- C1 witness: on Scenario A with `x = 3`, `fill_nodes` succeeds and the
result node (identifier 4) has an entry. -/
theorem claim_fill_nodes_complete_witness :
    bEx.fill_nodes inputsEx = .ok mEx ∧ (mEx 4).isSome :=
  ⟨rfl, claim_fill_nodes_complete bEx inputsEx mEx rfl
    (bEx.nodes.get ⟨4, by decide⟩) (List.get_mem bEx.nodes 4 (by decide))⟩

/-- C2: an `Add` (resp. `Mul`) node whose two operand values are resolved
records the sum (resp. product) of the operand values modulo `2 ^ 32`; in
particular, the graph `Add(Constant(4294967295), Constant(2))` evaluates its
`Add` node (identifier 2) to 1. -/
theorem claim_wrapping_arithmetic :
    (∀ (values : ValMap) (n : Node) (a c va vc : Nat),
        n.node_type = .add a c → values a = some va → values c = some vc →
        processNode values n = .ok (mapInsert values n.id ((va + vc) % 2 ^ 32))) ∧
    (∀ (values : ValMap) (n : Node) (a c va vc : Nat),
        n.node_type = .mul a c → values a = some va → values c = some vc →
        processNode values n = .ok (mapInsert values n.id ((va * vc) % 2 ^ 32))) ∧
    bWrap.fill_nodes emptyMap = .ok mWrap ∧ mWrap 2 = some 1 :=
  ⟨processNode_add_ok, processNode_mul_ok, rfl, rfl⟩

/-- C2 witness: the `Add` conjunct applied to a concrete node and mapping. -/
theorem claim_wrapping_arithmetic_witness :
    processNode vW { id := 5, node_type := .add 0 1 } =
      .ok (mapInsert vW 5 ((1 + 2) % 2 ^ 32)) :=
  claim_wrapping_arithmetic.1 vW { id := 5, node_type := .add 0 1 } 0 1 1 2
    rfl rfl rfl

/-- C3: if some `Input` node's identifier is absent from the supplied mapping,
the validation loop reports a missing input; whenever it reports identifier
`id`, that identifier belongs to an `Input` node absent from the mapping,
`fill_nodes` fails with the missing-input message naming it, and the same
failure results for every replacement of the hint functions — so the failure
is produced before any evaluation and no hint function is ever invoked. -/
theorem claim_missing_input_eager :
    (∀ (b : Builder) (inputs : ValMap),
        (∃ n ∈ b.nodes, n.node_type = .input ∧ inputs n.id = none) →
        ∃ id, findMissingInput b.nodes inputs = some id) ∧
    (∀ (b : Builder) (inputs : ValMap) (id : Nat),
        findMissingInput b.nodes inputs = some id →
        (∃ n ∈ b.nodes, n.id = id ∧ n.node_type = .input ∧ inputs id = none) ∧
        b.fill_nodes inputs =
          .error ("Missing value for input node " ++ toString id) ∧
        ∀ t : HintFunction → HintFunction,
          (mapHintFuncs t b).fill_nodes inputs =
            .error ("Missing value for input node " ++ toString id)) := by
  constructor
  · intro b inputs h
    obtain ⟨id, hfind, _⟩ := findMissingInput_some b.nodes inputs h
    exact ⟨id, hfind⟩
  · intro b inputs id h
    refine ⟨findMissingInput_spec b.nodes inputs id h, ?_, ?_⟩
    · unfold Builder.fill_nodes
      rw [h]
    · intro t
      unfold Builder.fill_nodes
      have hnodes : (mapHintFuncs t b).nodes = b.nodes.map (Node.mapHint t) := rfl
      rw [hnodes, findMissingInput_mapHint, h]

/-- C3 witness: on a graph with an `Input` node 0 and a `Hint` node 1, an
empty input mapping produces the missing-input failure for node 0, also after
replacing every hint function. -/
theorem claim_missing_input_eager_witness :
    bHint.fill_nodes emptyMap =
      .error ("Missing value for input node " ++ toString (0 : Nat)) ∧
    (mapHintFuncs tZero bHint).fill_nodes emptyMap =
      .error ("Missing value for input node " ++ toString (0 : Nat)) :=
  ⟨(claim_missing_input_eager.2 bHint emptyMap 0 rfl).2.1,
   (claim_missing_input_eager.2 bHint emptyMap 0 rfl).2.2 tZero⟩

/-- C4: on a graph built exclusively through the documented operations with
handles of the same builder, `fill_nodes` either succeeds or fails with the
missing-input message — the unresolved-operand and missing-hint-dependency
branches are unreachable. -/
theorem claim_topological_safety (b : Builder) (inputs : ValMap) (h : Built b) :
    (∃ m, b.fill_nodes inputs = .ok m) ∨
    (∃ id : Nat, b.fill_nodes inputs =
      .error ("Missing value for input node " ++ toString id)) := by
  obtain ⟨h1, h2⟩ := Built.wf b h
  cases hf : findMissingInput b.nodes inputs with
  | some id =>
    refine Or.inr ⟨id, ?_⟩
    unfold Builder.fill_nodes
    rw [hf]
  | none =>
    obtain ⟨m, hm⟩ := processNodes_wf_ok b.nodes 0 inputs h2
      (fun j hj => absurd hj (Nat.not_lt_zero j))
      (findMissingInput_none b.nodes inputs hf)
    refine Or.inl ⟨m, ?_⟩
    unfold Builder.fill_nodes
    rw [hf]
    exact hm

/-- C4 witness: the Scenario A builder with input `x = 3`. -/
theorem claim_topological_safety_witness :
    (∃ m, bEx.fill_nodes inputsEx = .ok m) ∨
    (∃ id : Nat, bEx.fill_nodes inputsEx =
      .error ("Missing value for input node " ++ toString id)) :=
  claim_topological_safety bEx inputsEx built_bEx

/-- C5: `check_constraints` returns true exactly when every registered
constraint has both identifiers resolved to equal values; a constraint with an
absent identifier fails the check, and the empty constraint set passes
vacuously. -/
theorem claim_check_constraints (b : Builder) (values : ValMap) :
    b.check_constraints values = true ↔
      ∀ c ∈ b.constraints, ∃ v,
        values c.left = some v ∧ values c.right = some v :=
  checkConstraintList_iff values b.constraints

/-- C5 witness: a single satisfied constraint `0 = 1` under a mapping that
resolves both sides to 7. -/
theorem claim_check_constraints_witness : bCon.check_constraints vCon = true :=
  (claim_check_constraints bCon vCon).mpr (fun c hc => by
    rw [List.mem_singleton.mp hc]
    exact ⟨7, rfl, rfl⟩)

/-- C6: the result of `fill_nodes` is a function of the node list and the
input mapping alone, so two builders with the same nodes — and in particular
two invocations on the same builder — always produce the same result. -/
theorem claim_deterministic (b1 b2 : Builder) (inputs : ValMap)
    (h : b1.nodes = b2.nodes) :
    b1.fill_nodes inputs = b2.fill_nodes inputs := by
  unfold Builder.fill_nodes
  rw [h]

/-- C6 witness: Scenario A against a copy with different constraints and
counters. -/
theorem claim_deterministic_witness :
    bEx.fill_nodes inputsEx =
      (Builder.mk bEx.nodes [] 99 99).fill_nodes inputsEx :=
  claim_deterministic bEx (Builder.mk bEx.nodes [] 99 99) inputsEx rfl

/-- C7: every builder reachable through the documented operations has
`next_id` equal to the node count, the node at index `i` carries identifier
`i`, and every node references only identifiers strictly below its own. -/
theorem claim_builder_invariant (b : Builder) (h : Built b) :
    b.next_id = b.nodes.length ∧
    ∀ i (hi : i < b.nodes.length),
      (b.nodes.get ⟨i, hi⟩).id = i ∧
      (b.nodes.get ⟨i, hi⟩).node_type.refsBelow i := by
  obtain ⟨h1, h2⟩ := Built.wf b h
  refine ⟨h1, fun i hi => ?_⟩
  have := nodesWF_get b.nodes 0 h2 i hi
  simpa using this

/-- C7 witness: the Scenario A builder, read off at index 4. -/
theorem claim_builder_invariant_witness :
    bEx.next_id = bEx.nodes.length ∧
    (bEx.nodes.get ⟨4, by decide⟩).id = 4 :=
  ⟨(claim_builder_invariant bEx built_bEx).1,
   ((claim_builder_invariant bEx built_bEx).2 4 (by decide)).1⟩

/-- C8 counterexample: the failure returned for an `Add` node does not say
which side is missing — a run with the left operand missing and a run with
the right operand missing return the same failure string, which names only
the node; likewise the `Hint` failure does not name the missing dependency:
both dependency gaps yield the same node-only message. -/
theorem claim_error_side_counterexample :
    bAddGap.fill_nodes inpL = bAddGap.fill_nodes inpR ∧
    bAddGap.fill_nodes inpL =
      .error ("Missing values for Add operation at node " ++ toString (0 : Nat)) ∧
    bHintGap.fill_nodes inpL = bHintGap.fill_nodes inpR ∧
    bHintGap.fill_nodes inpL =
      .error ("Missing dependency values for Hint at node " ++ toString (0 : Nat)) :=
  ⟨rfl, rfl, rfl, rfl⟩

/-- C8 amended: when `fill_nodes` fails on an `Add`/`Mul` node with an
unresolved operand, the failure names the operation and the node identifier
only (not which side is missing); when it fails on a `Hint` node, the failure
names the node only (not the missing dependency identifier). -/
theorem claim_error_names_node :
    (∀ (values : ValMap) (n : Node) (a c : Nat),
        n.node_type = .add a c → values a = none ∨ values c = none →
        processNode values n =
          .error ("Missing values for Add operation at node " ++ toString n.id)) ∧
    (∀ (values : ValMap) (n : Node) (a c : Nat),
        n.node_type = .mul a c → values a = none ∨ values c = none →
        processNode values n =
          .error ("Missing values for Mul operation at node " ++ toString n.id)) ∧
    (∀ (values : ValMap) (n : Node) (deps : List Nat) (f : HintFunction),
        n.node_type = .hint deps f → (∃ d ∈ deps, values d = none) →
        processNode values n =
          .error ("Missing dependency values for Hint at node " ++ toString n.id)) :=
  ⟨processNode_add_err, processNode_mul_err, processNode_hint_err⟩

/-- C8 amended witness: the `Add` conjunct at a concrete node whose left
operand is unresolved. -/
theorem claim_error_names_node_witness :
    processNode inpL { id := 0, node_type := .add 3 4 } =
      .error ("Missing values for Add operation at node " ++ toString (0 : Nat)) :=
  claim_error_names_node.1 inpL { id := 0, node_type := .add 3 4 } 3 4
    rfl (Or.inl rfl)

/-- C9: a `Hint` node with all declared dependencies resolved records the
value of its function applied to the sub-mapping that agrees with the working
mapping on the dependency identifiers and is empty outside them. -/
theorem claim_hint_submap (values : ValMap) (n : Node) (deps : List Nat)
    (f : HintFunction) (ht : n.node_type = .hint deps f)
    (hres : ∀ d ∈ deps, (values d).isSome) :
    processNode values n =
      .ok (mapInsert values n.id
        (f.func (buildDepMap values deps emptyMap false).1)) ∧
    (∀ k ∈ deps, (buildDepMap values deps emptyMap false).1 k = values k) ∧
    (∀ k, k ∉ deps → (buildDepMap values deps emptyMap false).1 k = none) := by
  refine ⟨processNode_hint_ok values n deps f ht hres, ?_, ?_⟩
  · intro k hk
    rw [buildDepMap_char values deps emptyMap hres k, if_pos hk]
  · intro k hk
    rw [buildDepMap_char values deps emptyMap hres k, if_neg hk]
    rfl

/-- C9 witness: a hint node depending on identifiers 1 and 2 under a concrete
working mapping; the sub-mapping resolves 1, and leaves 5 unresolved. -/
theorem claim_hint_submap_witness :
    processNode vH nH =
      .ok (mapInsert vH 3 (fH.func (buildDepMap vH [1, 2] emptyMap false).1)) ∧
    (buildDepMap vH [1, 2] emptyMap false).1 1 = some 10 ∧
    (buildDepMap vH [1, 2] emptyMap false).1 5 = none := by
  have H := claim_hint_submap vH nH [1, 2] fH rfl (by decide)
  exact ⟨H.1, (H.2.1 1 (by decide)).trans rfl, H.2.2 5 (by decide)⟩

/-- C10: `fill_nodes` never checks that supplied keys are `Input`
identifiers: on success, a supplied pair whose key is no node's identifier
appears unchanged in the result, while a value supplied for the constant node
of `bOver` is overwritten by the node's computed value and the alien key 7
passes through. -/
theorem claim_inputs_not_validated :
    (∀ (b : Builder) (inputs m : ValMap) (k : Nat),
        b.fill_nodes inputs = .ok m → (∀ n ∈ b.nodes, n.id ≠ k) →
        m k = inputs k) ∧
    bOver.fill_nodes inpOver = .ok mOver ∧
    mOver 0 = some 5 ∧ mOver 7 = some 42 := by
  refine ⟨?_, rfl, rfl, rfl⟩
  intro b inputs m k h hk
  unfold Builder.fill_nodes at h
  cases hf : findMissingInput b.nodes inputs with
  | some id => rw [hf] at h; cases h
  | none => rw [hf] at h; exact processNodes_preserves b.nodes inputs m h k hk

/-- C10 witness: the pass-through conjunct applied at the alien key 9. -/
theorem claim_inputs_not_validated_witness : mOver 9 = inpOver 9 :=
  claim_inputs_not_validated.1 bOver inpOver mOver 9 rfl (by decide)

end CG
